import Mathlib

/-!
Verification of the Technology Identification Engine of `wappalyzer-node`.

The repository's entry points (`index.js` and friends) wire a scraper
(`src/scrape.js`), structural helpers (`src/helpers/Wordpress.js`,
`src/helpers/Shopify.js`, `src/helpers/Magento.js`), a signature store
(`src/technologies/*.json` via `__loader.js`) and the core engine
`src/wappalyzer.js` (`analyze` / `resolve`).  The scraper, the helpers, the
domain utility `src/utils/getDomain.js` and the signature data are embedded
here from their sources.  The core engine module itself is not part of the
available sources (only its callers and its input data are), so the engine
components — pattern compiler, signal matcher, confidence/version
aggregator, dependency resolver and result assembler — are modelled from
the specification (sections 4.1–4.5), as marked on each definition.

Regular expressions are represented by an explicit abstract-syntax type
`Reg` with a backtracking, case-insensitive matcher that reports capture
groups; concrete signature regexes used in theorems are transcribed into
that syntax.  Compilation of a regex source string into `Reg` is the job of
the host regex library, so the engine is parameterized by a compilation
oracle `rc : String → Reg`.
-/

namespace Wapp

/-! ### A small regex engine (shallow embedding of the JS `RegExp` calls) -/

/-- Abstract syntax for the regular expressions the signatures use:
literals, single-character classes, `+` over a class, sequencing,
alternation, `?`, and numbered capture groups. -/
inductive Reg where
  | eps : Reg
  | lit : List Char → Reg
  | cls : (Char → Bool) → Reg
  | clsPlus : (Char → Bool) → Reg
  | seq : Reg → Reg → Reg
  | alt : Reg → Reg → Reg
  | opt : Reg → Reg
  | group : Nat → Reg → Reg

/-- Case-insensitive character comparison (the `i` flag every signature
pattern is compiled with, spec 4.1). -/
def charEqCI (a b : Char) : Bool := a.toLower = b.toLower

/-- Match a literal case-insensitively against a prefix of the input,
returning the rest of the input on success. -/
def litMatch : List Char → List Char → Option (List Char)
  | [], s => some s
  | _ :: _, [] => none
  | p :: ps, c :: cs => if charEqCI p c then litMatch ps cs else none

/-- All ways of consuming one-or-more leading characters of the class `p`,
longest (greediest) first; each entry is the remaining input. -/
def clsPlusRests (p : Char → Bool) : List Char → List (List Char)
  | [] => []
  | c :: cs => if p c then clsPlusRests p cs ++ [cs] else []

/-- Captures of a match: group index paired with the captured text. -/
abbrev Caps := List (Nat × String)

/-- Backtracking matcher: all ways `r` can match a prefix of `s`, each as
(remaining input, captures), in the preference order of a JS regex
(greedy quantifiers first, left alternative first). -/
def regMatch : Reg → List Char → List (List Char × Caps)
  | .eps, s => [(s, [])]
  | .lit l, s =>
    match litMatch l s with
    | some r => [(r, [])]
    | none => []
  | .cls p, s =>
    match s with
    | [] => []
    | c :: cs => if p c then [(cs, [])] else []
  | .clsPlus p, s => (clsPlusRests p s).map (fun r => (r, []))
  | .seq a b, s =>
    (regMatch a s).flatMap fun rc1 =>
      (regMatch b rc1.1).map fun rc2 => (rc2.1, rc1.2 ++ rc2.2)
  | .alt a b, s => regMatch a s ++ regMatch b s
  | .opt a, s => regMatch a s ++ [(s, [])]
  | .group n a, s =>
    (regMatch a s).map fun rc1 =>
      (rc1.1, rc1.2 ++ [(n, String.mk (s.take (s.length - rc1.1.length)))])

/-- Search for the leftmost match of `r` in the input, as `RegExp.test` /
`String.match` do, returning the captures of the first match found. -/
def regSearch (r : Reg) : List Char → Option Caps
  | [] =>
    match regMatch r [] with
    | rc1 :: _ => some rc1.2
    | [] => none
  | c :: cs =>
    match regMatch r (c :: cs) with
    | rc1 :: _ => some rc1.2
    | [] => regSearch r cs

/-- Boolean form of `regSearch` on a `String`. -/
def regTest (r : Reg) (s : String) : Bool := (regSearch r s.data).isSome

/-! ### Pattern directive parsing (spec 4.1, Pattern Compiler) -/

/-- Split a raw pattern string on the `\;` separator that divides the core
regex source from its `key:value` directives (the convention of the
signature corpus, e.g. `"...\;version:\1"` in `src/technologies`). -/
def splitDirectives : List Char → List (List Char)
  | [] => [[]]
  | '\\' :: ';' :: rest => [] :: splitDirectives rest
  | c :: rest =>
    match splitDirectives rest with
    | h :: t => (c :: h) :: t
    | [] => [[c]]

/-- Numeric value of a digit string (used for `confidence:N`). -/
def digitsToNat (l : List Char) : Nat :=
  l.foldl (fun acc c => 10 * acc + (c.toNat - '0'.toNat)) 0

/-- Does `p` begin the list `s` (case-sensitive)? -/
def beginsWith : List Char → List Char → Bool
  | [], _ => true
  | _ :: _, [] => false
  | p :: ps, c :: cs => p = c && beginsWith ps cs

/-- Case-sensitive substring test (JS `String.prototype.includes`). -/
def containsCS (needle : List Char) : List Char → Bool
  | [] => needle.isEmpty
  | c :: cs => beginsWith needle (c :: cs) || containsCS needle cs

/-- Modelled from the spec (4.1): a compiled rule's payload — the regex
source text, the confidence weight (default 100, integer 0–100) and the
version template. -/
structure ParsedPattern where
  source : String
  confidence : Nat
  version : String
deriving DecidableEq, Repr

/-- Modelled from the spec (4.1): apply one `key:value` directive.
`confidence:N` sets the weight (kept within the specified 0–100 range),
`version:TEMPLATE` sets the version template; others are ignored. -/
def applyDirective (acc : ParsedPattern) (dir : List Char) : ParsedPattern :=
  if beginsWith "confidence:".data dir then
    { acc with confidence := Nat.min (digitsToNat (dir.drop 11)) 100 }
  else if beginsWith "version:".data dir then
    { acc with version := String.mk (dir.drop 8) }
  else acc

/-- Modelled from the spec (4.1): split a raw pattern on the directive
separator; the first segment is the regex source, later segments are
directives. -/
def parsePattern (raw : String) : ParsedPattern :=
  match splitDirectives raw.data with
  | [] => ⟨raw, 100, ""⟩
  | src :: dirs => dirs.foldl applyDirective ⟨String.mk src, 100, ""⟩

/-- Modelled from the spec (4.1): resolve a version template against the
captures of a successful match, replacing each `\N` token by the `N`-th
capture group (empty if the group did not participate). -/
def applyTemplate : List Char → Caps → List Char
  | [], _ => []
  | '\\' :: d :: rest, caps =>
    if d.isDigit then
      (((caps.find? (fun kv => kv.1 = d.toNat - '0'.toNat)).map (fun kv => kv.2)).getD "").data
        ++ applyTemplate rest caps
    else '\\' :: applyTemplate (d :: rest) caps
  | c :: rest, caps => c :: applyTemplate rest caps

/-! ### Data model (spec 3) -/

/-- Signal-type tags (spec 3), in the engine's vocabulary. `dns` covers the
TXT and MX record channels; `cpe` is the informational identifier tag. -/
inductive Tag where
  | meta | headers | cookies | dns | cpe | js | scriptSrc | dom | html | css | text | url
deriving DecidableEq, Repr

/-- Provenance of a detection record (spec 3 and 4.4/4.5). -/
inductive Prov where
  | signature | implied | helper
deriving DecidableEq, Repr

/-- A raw hit (spec 4.2): which technology matched, on which signal tag,
with the rule's confidence weight and the resolved version string
(empty when the rule had no version template or no capture). -/
structure Hit where
  tech : String
  tag : Tag
  weight : Nat
  version : String
deriving DecidableEq, Repr

/-- A detection record (spec 3): accumulated confidence, resolved version
(empty = absent), provenance, and the category ids attached by the
resolver. -/
structure Detection where
  name : String
  confidence : Nat
  version : String
  provenance : Prov
  cats : List Nat
deriving DecidableEq, Repr

/-- A signature record (spec 3, shaped as in `src/technologies/*.json`):
per-signal raw pattern strings, keyed maps for the keyed signals, the
relationship fields and the category ids.  Informational fields (icon,
website, pricing, …) are opaque passthrough data and are not modelled. -/
structure Technology where
  cats : List Nat := []
  html : List String := []
  css : List String := []
  text : List String := []
  url : List String := []
  scriptSrc : List String := []
  js : List (String × String) := []
  meta : List (String × String) := []
  headers : List (String × String) := []
  cookies : List (String × String) := []
  dnsTxt : List String := []
  dnsMx : List String := []
  dom : List (String × String) := []
  cpe : Option String := none
  implies : List String := []
  excludes : List String := []
  requires : List String := []
  requiresCategory : List Nat := []
deriving Repr

/-- The signature store: technology name to signature record, in file
order (spec 3, supplied fully materialized by the loader). -/
abbrev Store := List (String × Technology)

/-- The scan payload (spec 3): every field optional except `url`; absent
fields are `none` / `[]`.  `headers`, `cookies` and `meta` are
multi-valued; `js` maps a key path to the observed value's string form;
`dom` maps a structural selector to the string extracted by the external
document-query collaborator. -/
structure Payload where
  url : Option String := none
  html : Option String := none
  css : Option String := none
  text : Option String := none
  scriptSrc : List String := []
  js : List (String × String) := []
  meta : List (String × List String) := []
  headers : List (String × List String) := []
  cookies : List (String × List String) := []
  dnsTxt : List String := []
  dnsMx : List String := []
  dom : List (String × String) := []
  certIssuer : Option String := none
deriving Repr

/-- Look up a technology record by name. -/
def lookupTech (store : Store) (n : String) : Option Technology :=
  (store.find? (fun nt => nt.1 = n)).map (fun nt => nt.2)

/-! ### Signal matcher (spec 4.2), modelled from the spec -/

/-- Candidate values of an optional scalar signal. -/
def optVals : Option String → List String
  | none => []
  | some s => [s]

/-- Values observed under a key of a multi-valued keyed signal; a key the
payload does not carry yields no candidate values. -/
def lookupVals (l : List (String × List String)) (k : String) : List String :=
  ((l.find? (fun kv => kv.1 = k)).map (fun kv => kv.2)).getD []

/-- Value observed under a key of a single-valued keyed signal. -/
def lookupVal (l : List (String × String)) (k : String) : List String :=
  ((l.find? (fun kv => kv.1 = k)).map (fun kv => [kv.2])).getD []

/-- Modelled from the spec (4.1/4.2): evaluate one raw pattern for
technology `n` on signal tag `tg` against the candidate values.  The raw
pattern is compiled (directives split off, regex source handed to the
host-library compilation oracle `rc`); an empty regex source matches any
observed value unconditionally; each matched value contributes one hit. -/
def ruleHits (rc : String → Reg) (n : String) (tg : Tag) (raw : String)
    (vals : List String) : List Hit :=
  let p := parsePattern raw
  vals.filterMap fun v =>
    if p.source = "" then
      some ⟨n, tg, p.confidence, String.mk (applyTemplate p.version.data [])⟩
    else
      match regSearch (rc p.source) v.data with
      | some caps => some ⟨n, tg, p.confidence, String.mk (applyTemplate p.version.data caps)⟩
      | none => none

/-- The fixed signal-tag priority order (spec 4.3):
meta > headers > cookies > dns > cpe > js > scriptSrc > dom > html > css > text > url. -/
def tagOrder : List Tag :=
  [.meta, .headers, .cookies, .dns, .cpe, .js, .scriptSrc, .dom, .html, .css, .text, .url]

/-- Modelled from the spec (4.2): the (raw pattern, candidate values)
pairs a signature contributes on a given signal tag.  `cpe` is an
informational tag and never triggers a hit. -/
def groupsOf (t : Technology) (p : Payload) : Tag → List (String × List String)
  | .meta => t.meta.map fun kv => (kv.2, lookupVals p.meta kv.1)
  | .headers => t.headers.map fun kv => (kv.2, lookupVals p.headers kv.1)
  | .cookies => t.cookies.map fun kv => (kv.2, lookupVals p.cookies kv.1)
  | .dns => (t.dnsTxt.map fun raw => (raw, p.dnsTxt)) ++ (t.dnsMx.map fun raw => (raw, p.dnsMx))
  | .cpe => []
  | .js => t.js.map fun kv => (kv.2, lookupVal p.js kv.1)
  | .scriptSrc => t.scriptSrc.map fun raw => (raw, p.scriptSrc)
  | .dom => t.dom.map fun kv => (kv.2, lookupVal p.dom kv.1)
  | .html => t.html.map fun raw => (raw, optVals p.html)
  | .css => t.css.map fun raw => (raw, optVals p.css)
  | .text => t.text.map fun raw => (raw, optVals p.text)
  | .url => t.url.map fun raw => (raw, optVals p.url)

/-- Modelled from the spec (4.2): all raw hits of one technology on one
payload, walking the signal tags in the fixed priority order. -/
def matchTech (rc : String → Reg) (n : String) (t : Technology) (p : Payload) : List Hit :=
  tagOrder.flatMap fun tg =>
    (groupsOf t p tg).flatMap fun g => ruleHits rc n tg g.1 g.2

/-- Modelled from the spec (4.2): all raw hits of a store on a payload. -/
def matchSignals (rc : String → Reg) (store : Store) (p : Payload) : List Hit :=
  store.flatMap fun nt => matchTech rc nt.1 nt.2 p

/-- The hits carrying a given signal tag. -/
def hitsWithTag (tg : Tag) (hits : List Hit) : List Hit :=
  hits.filter (fun h => h.tag = tg)

/-! ### Confidence and version aggregator (spec 4.3), modelled from the spec -/

/-- Deduplicate a name list keeping first occurrences. -/
def dedupNames (l : List String) : List String :=
  l.foldl (fun acc n => if acc.any (fun m => m = n) then acc else acc ++ [n]) []

/-- Reorder hits into the fixed signal-tag priority order (spec 4.3),
keeping the relative order of hits that share a tag. -/
def orderHits (hits : List Hit) : List Hit :=
  tagOrder.flatMap fun tg => hits.filter (fun h => h.tag = tg)

/-- Modelled from the spec (4.3): the first hit (in priority order) that
produced a non-empty resolved version wins; later hits of lower priority
never overwrite an already-resolved version. -/
def pickVersion (ordered : List Hit) : String :=
  ordered.foldl (fun acc h => if acc = "" then h.version else acc) ""

/-- Modelled from the spec (4.3): merge the raw hits of one technology
into a detection record — confidence is the sum of the hits' weights
capped at 100, the version is chosen by `pickVersion`. -/
def aggregateTech (hits : List Hit) (n : String) : Detection :=
  let hs := hits.filter (fun h => h.tech = n)
  { name := n
    confidence := Nat.min ((hs.map (fun h => h.weight)).sum) 100
    version := pickVersion (orderHits hs)
    provenance := .signature
    cats := [] }

/-- Modelled from the spec (4.3): group raw hits by technology; a
technology with zero hits is absent from the output entirely. -/
def aggregate (hits : List Hit) : List Detection :=
  (dedupNames (hits.map (fun h => h.tech))).map (aggregateTech hits)

/-- Modelled from the spec (4.2/4.3): `analyze` of the engine — match all
signatures and aggregate the raw hits. -/
def analyze (rc : String → Reg) (store : Store) (p : Payload) : List Detection :=
  aggregate (matchSignals rc store p)

/-! ### Dependency resolver (spec 4.4), modelled from the spec -/

/-- Does a detection with this name occur in the list? -/
def hasName (l : List Detection) (n : String) : Bool :=
  l.any (fun d => d.name = n)

/-- Modelled from the spec (4.4 step 2): an implied technology enters the
result set with confidence 100 and provenance "implied". -/
def mkImplied (n : String) : Detection :=
  ⟨n, 100, "", .implied, []⟩

/-- The `implies` list of a technology; an unknown name has none. -/
def impliesOf (store : Store) (n : String) : List String :=
  match lookupTech store n with
  | some t => t.implies
  | none => []

/-- The `excludes` list of a technology; an unknown name has none. -/
def excludesOf (store : Store) (n : String) : List String :=
  match lookupTech store n with
  | some t => t.excludes
  | none => []

/-- The declared category ids of a technology (empty for an unknown name). -/
def catsOf (store : Store) (n : String) : List Nat :=
  match lookupTech store n with
  | some t => t.cats
  | none => []

/-- Modelled from the spec (4.4 steps 2–3): add one implied name to the
(result set, worklist) pair — only if it names a known technology (an
unknown reference is ignored) and is not already present (cycle safety:
never re-added or re-pushed). -/
def addOne (store : Store) (p : List Detection × List String) (m : String) :
    List Detection × List String :=
  if (lookupTech store m).isSome && !hasName p.1 m then
    (p.1 ++ [mkImplied m], p.2 ++ [m])
  else p

/-- Process the `implies` names of one popped technology in order. -/
def addImplied (store : Store) (p : List Detection × List String) (names : List String) :
    List Detection × List String :=
  names.foldl (addOne store) p

/-- Count of store technologies not yet in the result set (the fuel
measure of the worklist: it strictly shrinks whenever something is added). -/
def remCount (store : Store) (done : List Detection) : Nat :=
  ((dedupNames (store.map (fun nt => nt.1))).filter (fun m => !hasName done m)).length

/-- Worklist measure: pending work plus technologies still addable. -/
def mu (store : Store) (done : List Detection) (work : List String) : Nat :=
  work.length + remCount store done

/-- `mu` on a (result set, worklist) pair. -/
def muP (store : Store) (p : List Detection × List String) : Nat :=
  p.2.length + remCount store p.1

/-- One worklist step: pop `n`, fold its `implies` into the pair. -/
def stepPair (store : Store) (done : List Detection) (work : List String) (n : String) :
    List Detection × List String :=
  addImplied store (done, work) (impliesOf store n)

/-- Modelled from the spec (4.4 steps 2–3): the worklist loop of the
implication closure.  Pops one name per step; each popped technology's
`implies` are added (with confidence 100) and pushed.  The fuel argument
is only a termination device: `mu` fuel always suffices. -/
def expandLoop (store : Store) : Nat → List Detection → List String → List Detection
  | 0, done, _ => done
  | _ + 1, done, [] => done
  | f + 1, done, n :: work =>
    expandLoop store f (stepPair store done work n).1 (stepPair store done work n).2

/-- Modelled from the spec (4.4 steps 1–3): transitive closure of
`implies` over a seed detection set, via the worklist. -/
def impliesClosure (store : Store) (seeds : List Detection) : List Detection :=
  expandLoop store (mu store seeds (seeds.map (fun d => d.name))) seeds
    (seeds.map (fun d => d.name))

/-- The detection threshold (spec 4.4: fixed, default 50). -/
def threshold : Nat := 50

/-- Modelled from the spec (4.4 step 1): seed the closure with the
directly detected technologies meeting the threshold. -/
def seedClosure (store : Store) (dets : List Detection) : List Detection :=
  impliesClosure store (dets.filter (fun d => threshold ≤ d.confidence))

/-- Modelled from the spec (4.4 step 4): after closure, every technology
excluded by some present technology is removed — exclusion is
one-directional and absolute. -/
def applyExcludes (store : Store) (closed : List Detection) : List Detection :=
  closed.filter fun d =>
    !(closed.any fun e => (excludesOf store e.name).any (fun x => x = d.name))

/-- Modelled from the spec (4.4 step 5): a technology stays only if some
required technology name is present and, for `requiresCategory`, some
present technology carries a required category id. -/
def reqOk (store : Store) (current : List Detection) (d : Detection) : Bool :=
  match lookupTech store d.name with
  | none => true
  | some t =>
    (t.requires.isEmpty || t.requires.any (fun r => hasName current r)) &&
      (t.requiresCategory.isEmpty ||
        t.requiresCategory.any (fun c => current.any (fun e => (catsOf store e.name).any (fun c2 => c2 = c))))

/-- Modelled from the spec (4.4 step 5): one-round filter, iterated to a
fixed point (removing a requirement holder can cascade); each unstable
round strictly shrinks the list, so `length + 1` rounds suffice. -/
def pruneLoop (store : Store) : Nat → List Detection → List Detection
  | 0, l => l
  | f + 1, l =>
    let l2 := l.filter (reqOk store l)
    if l2.length = l.length then l else pruneLoop store f l2

/-- Modelled from the spec (4.4 step 5): requirement pruning to a fixed
point. -/
def pruneRequires (store : Store) (l : List Detection) : List Detection :=
  pruneLoop store (l.length + 1) l

/-- Modelled from the spec (4.4 step 6): attach each surviving
technology's declared category ids. -/
def attachCats (store : Store) (l : List Detection) : List Detection :=
  l.map fun d => { d with cats := catsOf store d.name }

/-- Modelled from the spec (4.4): the full dependency resolver —
threshold, implication closure, exclusion, requirement pruning, category
attachment. -/
def resolve (store : Store) (dets : List Detection) : List Detection :=
  attachCats store (pruneRequires store (applyExcludes store (seedClosure store dets)))

/-! ### Result assembler (spec 4.5), modelled from the spec -/

/-- Modelled from the spec (4.5): a technology confirmed by a helper but
absent from the signature-based set is added fresh with provenance
"helper" (and, per the confidence policy, confidence 100). -/
def mkHelperDet (n : String) : Detection :=
  ⟨n, 100, "", .helper, []⟩

/-- Modelled from the spec (4.5): merge helper findings by technology
name — a falsy finding (`none`) is "not detected"; a confirmed name
already present has its confidence forced to 100; a confirmed name not
present is added fresh. -/
def applyHelpers (resolved : List Detection) (findings : List (Option String)) :
    List Detection :=
  let confirmed := findings.filterMap id
  let merged := resolved.map fun d =>
    if confirmed.any (fun n => n = d.name) then { d with confidence := 100 } else d
  merged ++ (confirmed.filter (fun n => !hasName resolved n)).map mkHelperDet

/-- Deduplicate detections by technology name, keeping first occurrences. -/
def dedupByName (l : List Detection) : List Detection :=
  l.foldl (fun acc d => if hasName acc d.name then acc else acc ++ [d]) []

/-- Sort order of the final list (spec 4.5): descending confidence, then
alphabetically by name for ties. -/
def detBefore (a b : Detection) : Bool :=
  if a.confidence = b.confidence then decide (a.name < b.name) || a.name = b.name
  else decide (b.confidence < a.confidence)

/-- Insertion step of the final sort. -/
def insertDet (d : Detection) : List Detection → List Detection
  | [] => [d]
  | e :: es => if detBefore d e then d :: e :: es else e :: insertDet d es

/-- Insertion sort by `detBefore`. -/
def sortDets : List Detection → List Detection
  | [] => []
  | d :: ds => insertDet d (sortDets ds)

/-- Modelled from the spec (4.5): the result assembler — fold in helper
findings, deduplicate by name, sort. -/
def assemble (resolved : List Detection) (findings : List (Option String)) :
    List Detection :=
  sortDets (dedupByName (applyHelpers resolved findings))

/-- The whole engine pipeline for one scan: match, aggregate, resolve,
assemble (the composition `scan` performs via `wappalyzer.analyze` and
`wappalyzer.resolve`). -/
def scanPipeline (rc : String → Reg) (store : Store) (p : Payload)
    (findings : List (Option String)) : List Detection :=
  assemble (resolve store (analyze rc store p)) findings

/-! ### Scraper guard and domain utility (from `src/scrape.js`,
`src/utils/getDomain.js`) -/

/-- JS falsiness of an optional string argument (`undefined`, `null` and
`""` are falsy; every other string is truthy). -/
def jsFalsy : Option String → Bool
  | none => true
  | some s => s = ""

/-- Split a character list on a separator character (JS `String.split`). -/
def splitChar (sep : Char) : List Char → List (List Char)
  | [] => [[]]
  | c :: rest =>
    if c = sep then [] :: splitChar sep rest
    else
      match splitChar sep rest with
      | h :: t => (c :: h) :: t
      | [] => [[c]]

/-- From `src/utils/getDomain.js`: take the part after `//` (or the start
of the string when there is no `//`) up to the first `/`, then strip a
`:port` and a `?query`.  The source also reports a timing duration, which
is not modelled. -/
def getDomain (url : String) : String :=
  let cs := url.data
  let hostname :=
    if containsCS ['/', '/'] cs then (splitChar '/' cs).getD 2 []
    else (splitChar '/' cs).getD 0 []
  String.mk (((splitChar ':' hostname).getD 0 [] |> splitChar '?').getD 0 [])

/-- From `src/scrape.js` (`getHTML`, line 390): the only payload-shape
check of a scan — `if (!url) throw new Error("No URL provided")` before
any fetching; with a truthy url the fetch path proceeds. -/
def getHTMLCheck (url : Option String) : Except String Unit :=
  if jsFalsy url then .error "No URL provided" else .ok ()

/-! ### Structural helpers (from `src/helpers/Wordpress.js`,
`src/helpers/Shopify.js`, `src/helpers/Magento.js`) -/

/-- The slice of the parsed document (cheerio object) the helpers read:
the serialized html (`dom.html()`) and the body of the
`script.boomerang` element (`dom('script.boomerang').html()`, `none` when
the element is absent). -/
structure Dom where
  html : String
  boomerang : Option String

/-- JS member access `dom.html()` on a possibly-undefined `dom`: a
`TypeError` when `dom` is undefined. -/
def domHtml : Option Dom → Except String String
  | none => .error "TypeError: dom is undefined"
  | some d => .ok d.html

/-- A helper finding: the confirmed technology name plus the
domain-specific metadata the helpers attach (only the `domain` field is
modelled; theme/plugin metadata is produced by network fetches, outside
the pure embedding). -/
structure HelperFound where
  name : String
  domain : Option String
deriving DecidableEq, Repr

/-- The error the WordPress and Shopify helpers throw on a missing
argument. -/
def invalidArgMsg : String := "Invalid URL or DOM was not passed."

/-- From `src/helpers/Wordpress.js` (`isWordpress`): the regex
`/<(img|link|script) [^>]+wp-content/i` tested against `dom.html()`. -/
def wpReg : Reg :=
  .seq (.lit ['<'])
    (.seq (.group 1 (.alt (.lit "img".data) (.alt (.lit "link".data) (.lit "script".data))))
      (.seq (.lit [' '])
        (.seq (.clsPlus (fun c => !(c = '>'))) (.lit "wp-content".data))))

/-- From `src/helpers/Wordpress.js`: is the page a WordPress site? -/
def isWordpress (d : Dom) : Bool := regTest wpReg d.html

/-- From `src/helpers/Magento.js` (`isMagento`): the regex
`/skin\/frontend\/|\/static\//i` tested against `dom.html()`. -/
def magReg : Reg := .alt (.lit "skin/frontend/".data) (.lit "/static/".data)

/-- From `src/helpers/Magento.js`: is the page a Magento site? -/
def isMagento (html : String) : Bool := regTest magReg html

/-- From `src/technologies/__loader.js` (`Shopify_Helpers.isShopify`): the
Boomerang script exists and contains `window.BOOMR.themeName`
(case-sensitive `includes`). -/
def isShopify (d : Dom) : Bool :=
  match d.boomerang with
  | none => false
  | some s => containsCS "window.BOOMR.themeName".data s.data

/-- From `src/helpers/Wordpress.js` (`scan`): throw on a falsy `url` or
missing `dom`; return `false` (here `none`) when the WordPress marker is
absent; otherwise a finding named "WordPress" with the domain.  The
theme/plugin metadata gathered by network fetches is not modelled. -/
def wordpressScan (url : Option String) (dom : Option Dom) :
    Except String (Option HelperFound) :=
  match dom with
  | none => .error invalidArgMsg
  | some d =>
    if jsFalsy url then .error invalidArgMsg
    else if isWordpress d then .ok (some ⟨"WordPress", some (getDomain (url.getD ""))⟩)
    else .ok none

/-- From `src/technologies/__loader.js` (`Shopify_Helpers.scan`): the same
guard as the WordPress helper; `false` when the Boomerang marker is
absent; otherwise a finding named "Shopify" with the domain. -/
def shopifyScan (url : Option String) (dom : Option Dom) :
    Except String (Option HelperFound) :=
  match dom with
  | none => .error invalidArgMsg
  | some d =>
    if jsFalsy url then .error invalidArgMsg
    else if isShopify d then .ok (some ⟨"Shopify", some (getDomain (url.getD ""))⟩)
    else .ok none

/-- From `src/helpers/Magento.js` (`scan`): no argument guard — the
helper reads `dom.html()` unconditionally (a missing `dom` is a JS
`TypeError`, not the helpers' invalid-argument error); `false` when the
Magento marker is absent; otherwise a finding named "Magento" (its theme
metadata is not modelled). -/
def magentoScan (_url : Option String) (dom : Option Dom) :
    Except String (Option HelperFound) :=
  match domHtml dom with
  | .error e => .error e
  | .ok h => if isMagento h then .ok (some ⟨"Magento", none⟩) else .ok none

/-! ### Concrete fixtures used by the theorems -/

/-- The raw "Zend" header pattern, verbatim from
`src/technologies/__loader.js` (the `z.json` data, "Zend" record). -/
def zendHeaderRaw : String := "Zend(?:Server)?(?:[\\s/]?([0-9.]+))?\\;version:\\1"

/-- The regex source of `zendHeaderRaw` (the part before the `\;version`
directive). -/
def zendHeaderSource : String := "Zend(?:Server)?(?:[\\s/]?([0-9.]+))?"

/-- Hand transcription of `Zend(?:Server)?(?:[\s/]?([0-9.]+))?` into the
`Reg` syntax. -/
def zendReg : Reg :=
  .seq (.lit "Zend".data)
    (.seq (.opt (.lit "Server".data))
      (.opt (.seq (.opt (.cls (fun c => c.isWhitespace || c = '/')))
        (.group 1 (.clsPlus (fun c => c.isDigit || c = '.'))))))

/-- Regex-compilation oracle for the Zend store: the one regex source the
store contains compiles to `zendReg`; anything else to a never-matching
regex. -/
def rcZend : String → Reg :=
  fun s => if s = zendHeaderSource then zendReg else .cls (fun _ => false)

/-- The "Zend" signature record, from `src/technologies/__loader.js`
lines 251–264. -/
def zendTech : Technology :=
  { cats := [22]
    cookies := [("ZENDSERVERSESSID", "")]
    cpe := some "cpe:2.3:a:zend:zend_server:*:*:*:*:*:*:*:*"
    headers := [("X-Powered-By", zendHeaderRaw)] }

/-- A store containing only the "Zend" signature. -/
def zendStore : Store := [("Zend", zendTech)]

/-- A payload whose only signal is the `X-Powered-By: Zend/8.1` response
header. -/
def zendPayload : Payload :=
  { url := some "https://example.com"
    headers := [("X-Powered-By", ["Zend/8.1"])] }

/-- A directly detected signature record with confidence 100. -/
def mkSig (n : String) : Detection := ⟨n, 100, "", .signature, []⟩

/-- Store for the implication-transitivity witness: A implies B, B implies
C. -/
def store2 : Store := [("A", { implies := ["B"] }), ("B", { implies := ["C"] }), ("C", {})]

/-- A direct detection of only A, above the threshold. -/
def dA2 : Detection := ⟨"A", 60, "", .signature, []⟩

/-- Store for the exclusion witness: A excludes B. -/
def store3 : Store := [("A", { excludes := ["B"] }), ("B", {})]

/-- Both A and B directly detected with confidence 100. -/
def dets3 : List Detection := [mkSig "A", mkSig "B"]

/-- Store for the cascading-requirement witness: A excludes B, C requires
B, D requires C. -/
def store4 : Store :=
  [("A", { cats := [1], excludes := ["B"] }), ("B", { cats := [1] }),
   ("C", { requires := ["B"] }), ("D", { requires := ["C"] })]

/-- All four technologies of `store4` directly detected. -/
def dets4 : List Detection := [mkSig "A", mkSig "B", mkSig "C", mkSig "D"]

/-- A compilation oracle yielding a never-matching regex (used where no
non-empty regex source is ever compiled). -/
def rcNone : String → Reg := fun _ => .cls (fun _ => false)

/-- A payload carrying a `url` and no other signal at all. -/
def urlOnlyPayload : Payload := { url := some "https://example.com" }

/-- A one-signature store whose signature carries a presence-style `url`
pattern (empty regex source). -/
def c8Store : Store := [("UrlTech", { cats := [1], url := [""] })]

/-- Two hits for one technology: an `html` hit carrying version "9.9" and
a `meta` hit carrying version "3.1". -/
def hits5 : List Hit := [⟨"T", .html, 100, "9.9"⟩, ⟨"T", .meta, 100, "3.1"⟩]

/-- A document slice carrying the WordPress `wp-content` marker. -/
def wpDom : Dom := ⟨"<html><img src=http://site.example/wp-content/x.png></html>", none⟩

/-- A document slice carrying the Magento `/static/` marker. -/
def magDom : Dom := ⟨"<link href=/static/frontend/x>", none⟩

/-- A document slice with a Boomerang script naming a Shopify theme. -/
def shopDom : Dom := ⟨"<html></html>", some "window.BOOMR.themeName = \"Dawn\";"⟩

/-- A document slice carrying none of the helpers' CMS markers. -/
def plainDom : Dom := ⟨"<html><p>hi</p></html>", none⟩

/-! ## Theorems -/

/-- C1: For a scan payload whose only signal is the response header
`X-Powered-By: Zend/8.1`, analyzed against a store containing only the
"Zend" signature (header pattern `Zend(?:Server)?(?:[\s/]?([0-9.]+))?`
with version template `\1`), the engine returns exactly one technology
result, with name "Zend", version "8.1", and confidence 100. -/
theorem c1_zend_end_to_end :
    scanPipeline rcZend zendStore zendPayload [] =
      [⟨"Zend", 100, "8.1", .signature, [22]⟩] := by
  decide

/-- The fold that never overwrites a non-empty version computes the first
hit with a non-empty version. -/
theorem foldVersion_spec (l : List Hit) (acc : String) :
    l.foldl (fun acc h => if acc = "" then h.version else acc) acc =
      if acc = "" then
        match l.find? (fun h => !(h.version = "")) with
        | some h => h.version
        | none => ""
      else acc := by
  induction l generalizing acc with
  | nil => by_cases hacc : acc = "" <;> simp [List.foldl, hacc]
  | cons h t ih =>
    by_cases hacc : acc = ""
    · subst hacc
      by_cases hv : h.version = ""
      · simp [List.foldl, hv, List.find?, ih]
      · simp [List.foldl, hv, List.find?, ih]
    · simp [List.foldl, hacc, ih]

/-- C5: For every set of raw hits for one technology, the resolved
version is the version of the first hit (in the fixed signal-tag priority
order meta > headers > cookies > dns > cpe > js > scriptSrc > dom > html
> css > text > url) that produced a non-empty version string — later hits
of lower priority never overwrite it; in particular, when `meta` carries
version "3.1" and `html` carries version "9.9" for the same technology,
the resolved version is "3.1". -/
theorem c5_version_priority :
    (∀ hits : List Hit,
      pickVersion (orderHits hits) =
        match (orderHits hits).find? (fun h => !(h.version = "")) with
        | some h => h.version
        | none => "") ∧
    aggregate hits5 = [⟨"T", 100, "3.1", .signature, []⟩] := by
  constructor
  · intro hits
    simpa [pickVersion] using foldVersion_spec (orderHits hits) ""
  · decide

/-! ### List lemmas for the worklist closure -/

/-- Membership form of `hasName`. -/
theorem hasName_iff {l : List Detection} {n : String} :
    hasName l n = true ↔ ∃ d ∈ l, d.name = n := by
  simp [hasName]

/-- `hasName` over an appended singleton. -/
theorem hasName_append_one (l : List Detection) (d : Detection) (n : String) :
    hasName (l ++ [d]) n = (hasName l n || decide (d.name = n)) := by
  simp [hasName, List.any_append]

/-- Filtering with a stronger predicate never keeps more elements. -/
theorem length_filter_mono {α : Type} (l : List α) (p q : α → Bool)
    (h : ∀ x, q x = true → p x = true) :
    (l.filter q).length ≤ (l.filter p).length := by
  induction l with
  | nil => simp
  | cons a t ih =>
    by_cases hq : q a = true
    · simp only [List.filter_cons, hq, h a hq, if_true]
      simpa using ih
    · simp only [List.filter_cons, hq, if_false]
      by_cases hp : p a = true
      · simp only [hp, if_true]
        exact Nat.le_succ_of_le ih
      · simp only [hp, if_false]
        exact ih

/-- Filtering with a stronger predicate that loses a kept element keeps
strictly fewer elements. -/
theorem length_filter_lt {α : Type} (l : List α) (p q : α → Bool) (m : α)
    (hm : m ∈ l) (hpm : p m = true) (hqm : q m = false)
    (h : ∀ x, q x = true → p x = true) :
    (l.filter q).length < (l.filter p).length := by
  induction l with
  | nil => cases hm
  | cons a t ih =>
    rcases List.mem_cons.mp hm with rfl | hmt
    · have hq : q m = true → False := by simp [hqm]
      simp only [List.filter_cons, hpm, if_true]
      by_cases hqa : q m = true
      · exact absurd hqa hq
      · simp only [hqa, if_false]
        exact Nat.lt_succ_of_le (length_filter_mono t p q h)
    · by_cases hq : q a = true
      · simp only [List.filter_cons, hq, h a hq, if_true]
        simpa using ih hmt
      · simp only [List.filter_cons, hq, if_false]
        by_cases hp : p a = true
        · simp only [hp, if_true]
          exact Nat.lt_succ_of_lt (ih hmt)
        · simp only [hp, if_false]
          exact ih hmt

/-- Membership in the dedup fold. -/
theorem mem_foldl_dedup (l : List String) (acc : List String) (x : String) :
    (x ∈ l.foldl (fun acc n => if acc.any (fun m => m = n) then acc else acc ++ [n]) acc) ↔
      x ∈ acc ∨ x ∈ l := by
  induction l generalizing acc with
  | nil => simp
  | cons n t ih =>
    simp only [List.foldl_cons]
    rw [ih]
    by_cases hc : acc.any (fun m => m = n) = true
    · have hn : n ∈ acc := by
        rcases List.any_eq_true.mp hc with ⟨y, hy, hyn⟩
        simp only [decide_eq_true_eq] at hyn
        exact hyn ▸ hy
      rw [if_pos hc]
      simp only [List.mem_cons]
      constructor
      · rintro (h | h)
        · exact Or.inl h
        · exact Or.inr (Or.inr h)
      · rintro (h | rfl | h)
        · exact Or.inl h
        · exact Or.inl hn
        · exact Or.inr h
    · rw [if_neg hc]
      simp only [List.mem_append, List.mem_singleton, List.mem_cons, List.not_mem_nil,
        or_false]
      tauto

/-- `dedupNames` preserves membership. -/
theorem mem_dedupNames {l : List String} {x : String} :
    x ∈ dedupNames l ↔ x ∈ l := by
  simpa [dedupNames] using mem_foldl_dedup l [] x

/-- A technology the lookup finds appears among the store's names. -/
theorem lookupTech_isSome_mem {store : Store} {m : String}
    (h : (lookupTech store m).isSome = true) :
    m ∈ store.map (fun nt => nt.1) := by
  unfold lookupTech at h
  cases hfind : store.find? (fun nt => nt.1 = m) with
  | none => rw [hfind] at h; simp at h
  | some nt =>
    have hmem := List.mem_of_find?_eq_some hfind
    have hp := List.find?_some hfind
    simp only [decide_eq_true_eq] at hp
    exact hp ▸ List.mem_map_of_mem _ hmem

/-! ### Properties of one closure step -/

/-- `addOne` never drops result-set entries. -/
theorem addOne_done_mono {store : Store} {p : List Detection × List String} {m : String}
    {d : Detection} (h : d ∈ p.1) : d ∈ (addOne store p m).1 := by
  unfold addOne
  by_cases hc : ((lookupTech store m).isSome && !hasName p.1 m) = true
  · simp [hc, List.mem_append, h]
  · simpa [hc] using h

/-- `addOne` never drops worklist entries. -/
theorem addOne_work_mono {store : Store} {p : List Detection × List String} {m : String}
    {x : String} (h : x ∈ p.2) : x ∈ (addOne store p m).2 := by
  unfold addOne
  by_cases hc : ((lookupTech store m).isSome && !hasName p.1 m) = true
  · simp [hc, List.mem_append, h]
  · simpa [hc] using h

/-- Everything in the result set after `addOne` was there before or is the
freshly implied record. -/
theorem addOne_done_shape {store : Store} {p : List Detection × List String} {m : String}
    {d : Detection} (h : d ∈ (addOne store p m).1) : d ∈ p.1 ∨ d = mkImplied m := by
  unfold addOne at h
  by_cases hc : ((lookupTech store m).isSome && !hasName p.1 m) = true
  · simp only [hc, if_true] at h
    rcases List.mem_append.mp h with h1 | h1
    · exact Or.inl h1
    · exact Or.inr (List.mem_singleton.mp h1)
  · simp only [hc, if_false] at h
    exact Or.inl h

/-- After `addOne` on a known name the result set carries that name. -/
theorem addOne_hasName {store : Store} {p : List Detection × List String} {m : String}
    (hs : (lookupTech store m).isSome = true) :
    hasName (addOne store p m).1 m = true := by
  unfold addOne
  by_cases hh : hasName p.1 m = true
  · by_cases hc : ((lookupTech store m).isSome && !hasName p.1 m) = true
    · rw [if_pos hc, hasName_append_one]
      simp [hh]
    · rw [if_neg hc]
      exact hh
  · have hh2 : hasName p.1 m = false := by
      revert hh; cases hasName p.1 m <;> simp
    have hc : ((lookupTech store m).isSome && !hasName p.1 m) = true := by
      simp [hs, hh2]
    rw [if_pos hc, hasName_append_one]
    simp [mkImplied]

/-- `hasName` is monotone along `addOne`. -/
theorem addOne_hasName_mono {store : Store} {p : List Detection × List String}
    {m n : String} (h : hasName p.1 n = true) : hasName (addOne store p m).1 n = true := by
  rcases hasName_iff.mp h with ⟨d, hd, hdn⟩
  exact hasName_iff.mpr ⟨d, addOne_done_mono hd, hdn⟩

/-- A name newly present in the result set after `addOne` was pushed. -/
theorem addOne_new_pushed {store : Store} {p : List Detection × List String} {m n : String}
    (h : hasName (addOne store p m).1 n = true) :
    hasName p.1 n = true ∨ n ∈ (addOne store p m).2 := by
  unfold addOne at h ⊢
  by_cases hc : ((lookupTech store m).isSome && !hasName p.1 m) = true
  · rw [if_pos hc] at h ⊢
    rw [hasName_append_one] at h
    by_cases h1 : hasName p.1 n = true
    · exact Or.inl h1
    · have h1f : hasName p.1 n = false := by
        revert h1; cases hasName p.1 n <;> simp
      rw [h1f] at h
      have h2 : m = n := by simpa [mkImplied] using h
      exact Or.inr (h2 ▸ List.mem_append.mpr (Or.inr (List.mem_singleton.mpr rfl)))
  · rw [if_neg hc] at h
    exact Or.inl h

/-- `addOne` does not increase the worklist measure. -/
theorem addOne_mu (store : Store) (p : List Detection × List String) (m : String) :
    muP store (addOne store p m) ≤ muP store p := by
  unfold addOne
  by_cases hc : ((lookupTech store m).isSome && !hasName p.1 m) = true
  · rw [if_pos hc]
    have hc2 := hc
    simp only [Bool.and_eq_true] at hc2
    obtain ⟨hs, hhb⟩ := hc2
    have hh : hasName p.1 m = false := by
      revert hhb; cases hasName p.1 m <;> simp
    have hlt : remCount store (p.1 ++ [mkImplied m]) < remCount store p.1 := by
      unfold remCount
      refine length_filter_lt _ _ _ m ?_ ?_ ?_ ?_
      · exact mem_dedupNames.mpr (lookupTech_isSome_mem hs)
      · simp [hh]
      · rw [hasName_append_one]
        simp [mkImplied]
      · intro x hx
        rw [hasName_append_one] at hx
        revert hx
        cases hval : hasName p.1 x <;> simp
    simp only [muP, List.length_append, List.length_singleton]
    omega
  · rw [if_neg hc]

/-! ### Properties of processing one popped technology -/

/-- `addImplied` never drops result-set entries. -/
theorem addImplied_done_mono (store : Store) (names : List String) :
    ∀ (p : List Detection × List String) (d : Detection),
      d ∈ p.1 → d ∈ (addImplied store p names).1 := by
  induction names with
  | nil => intro p d h; exact h
  | cons a t ih =>
    intro p d h
    simp only [addImplied, List.foldl_cons] at *
    exact ih (addOne store p a) d (addOne_done_mono h)

/-- `addImplied` never drops worklist entries. -/
theorem addImplied_work_mono (store : Store) (names : List String) :
    ∀ (p : List Detection × List String) (x : String),
      x ∈ p.2 → x ∈ (addImplied store p names).2 := by
  induction names with
  | nil => intro p x h; exact h
  | cons a t ih =>
    intro p x h
    simp only [addImplied, List.foldl_cons] at *
    exact ih (addOne store p a) x (addOne_work_mono h)

/-- Result-set entries after `addImplied` are old entries or implied
records. -/
theorem addImplied_done_shape (store : Store) (names : List String) :
    ∀ (p : List Detection × List String) (d : Detection),
      d ∈ (addImplied store p names).1 → d ∈ p.1 ∨ ∃ m, d = mkImplied m := by
  induction names with
  | nil => intro p d h; exact Or.inl h
  | cons a t ih =>
    intro p d h
    simp only [addImplied, List.foldl_cons] at h
    rcases ih (addOne store p a) d h with h1 | h1
    · rcases addOne_done_shape h1 with h2 | h2
      · exact Or.inl h2
      · exact Or.inr ⟨a, h2⟩
    · exact Or.inr h1

/-- `hasName` is monotone along `addImplied`. -/
theorem addImplied_hasName_mono (store : Store) (names : List String)
    {p : List Detection × List String} {n : String} (h : hasName p.1 n = true) :
    hasName (addImplied store p names).1 n = true := by
  rcases hasName_iff.mp h with ⟨d, hd, hdn⟩
  exact hasName_iff.mpr ⟨d, addImplied_done_mono store names p d hd, hdn⟩

/-- Every known name in the processed `implies` list ends up present. -/
theorem addImplied_hasName (store : Store) (names : List String) :
    ∀ (p : List Detection × List String) (m : String),
      m ∈ names → (lookupTech store m).isSome = true →
      hasName (addImplied store p names).1 m = true := by
  induction names with
  | nil => intro p m h; cases h
  | cons a t ih =>
    intro p m hm hs
    simp only [addImplied, List.foldl_cons] at *
    rcases List.mem_cons.mp hm with rfl | hmt
    · exact addImplied_hasName_mono store t (addOne_hasName hs)
    · exact ih (addOne store p a) m hmt hs

/-- A name newly present after `addImplied` is on the new worklist. -/
theorem addImplied_new_pushed (store : Store) (names : List String) :
    ∀ (p : List Detection × List String) (n : String),
      hasName (addImplied store p names).1 n = true →
      hasName p.1 n = true ∨ n ∈ (addImplied store p names).2 := by
  induction names with
  | nil => intro p n h; exact Or.inl h
  | cons a t ih =>
    intro p n h
    simp only [addImplied, List.foldl_cons] at *
    rcases ih (addOne store p a) n h with h1 | h1
    · rcases addOne_new_pushed h1 with h2 | h2
      · exact Or.inl h2
      · exact Or.inr (addImplied_work_mono store t (addOne store p a) n h2)
    · exact Or.inr h1

/-- A known name of the processed `implies` list that was not yet in the
result set (or was already on the worklist) is on the new worklist. -/
theorem addImplied_pushed (store : Store) (names : List String) :
    ∀ (p : List Detection × List String) (m : String),
      m ∈ names → (lookupTech store m).isSome = true →
      (hasName p.1 m = false ∨ m ∈ p.2) →
      m ∈ (addImplied store p names).2 := by
  induction names with
  | nil => intro p m h; cases h
  | cons a t ih =>
    intro p m hm hs hinv
    simp only [addImplied, List.foldl_cons] at *
    rcases List.mem_cons.mp hm with rfl | hmt
    · have : m ∈ (addOne store p m).2 := by
        rcases hinv with h1 | h1
        · unfold addOne
          have hc : ((lookupTech store m).isSome && !hasName p.1 m) = true := by
            simp [hs, h1]
          rw [if_pos hc]
          exact List.mem_append.mpr (Or.inr (List.mem_singleton.mpr rfl))
        · exact addOne_work_mono h1
      exact addImplied_work_mono store t (addOne store p m) m this
    · refine ih (addOne store p a) m hmt hs ?_
      by_cases h2 : hasName (addOne store p a).1 m = true
      · rcases addOne_new_pushed h2 with h3 | h3
        · rcases hinv with h4 | h4
          · rw [h4] at h3; cases h3
          · exact Or.inr (addOne_work_mono h4)
        · exact Or.inr h3
      · have : hasName (addOne store p a).1 m = false := by
          revert h2; cases hasName (addOne store p a).1 m <;> simp
        exact Or.inl this

/-- `addImplied` does not increase the worklist measure. -/
theorem addImplied_mu (store : Store) (names : List String) :
    ∀ (p : List Detection × List String),
      muP store (addImplied store p names) ≤ muP store p := by
  induction names with
  | nil => intro p; exact Nat.le_refl _
  | cons a t ih =>
    intro p
    simp only [addImplied, List.foldl_cons] at *
    exact Nat.le_trans (ih (addOne store p a)) (addOne_mu store p a)

/-- Popping a name strictly decreases the measure. -/
theorem stepPair_mu (store : Store) (done : List Detection) (work : List String)
    (n : String) :
    mu store (stepPair store done work n).1 (stepPair store done work n).2 + 1 ≤
      mu store done (n :: work) := by
  have h := addImplied_mu store (impliesOf store n) (done, work)
  simp only [stepPair, mu, muP, remCount, List.length_cons] at *
  omega

/-! ### Properties of the worklist loop -/

/-- The loop never drops result-set entries. -/
theorem expandLoop_mono (store : Store) (f : Nat) :
    ∀ (done : List Detection) (work : List String) (d : Detection),
      d ∈ done → d ∈ expandLoop store f done work := by
  induction f with
  | zero => intro done work d h; simpa [expandLoop] using h
  | succ f ih =>
    intro done work d h
    cases work with
    | nil => simpa [expandLoop] using h
    | cons n w =>
      simp only [expandLoop]
      exact ih _ _ d (addImplied_done_mono store (impliesOf store n) (done, w) d h)

/-- Loop output entries are seeds or implied records. -/
theorem expandLoop_shape (store : Store) (f : Nat) :
    ∀ (done : List Detection) (work : List String) (d : Detection),
      d ∈ expandLoop store f done work → d ∈ done ∨ ∃ m, d = mkImplied m := by
  induction f with
  | zero => intro done work d h; exact Or.inl (by simpa [expandLoop] using h)
  | succ f ih =>
    intro done work d h
    cases work with
    | nil => exact Or.inl (by simpa [expandLoop] using h)
    | cons n w =>
      simp only [expandLoop] at h
      rcases ih _ _ d h with h1 | h1
      · exact addImplied_done_shape store (impliesOf store n) (done, w) d h1
      · exact Or.inr h1

/-- With adequate fuel, every implication of a worklisted technology ends
up present in the closure. -/
theorem expandLoop_processes (store : Store) (f : Nat) :
    ∀ (done : List Detection) (work : List String) (n m : String),
      mu store done work ≤ f → n ∈ work → m ∈ impliesOf store n →
      (lookupTech store m).isSome = true →
      hasName (expandLoop store f done work) m = true := by
  induction f with
  | zero =>
    intro done work n m hmu hn _ _
    have hlen : work.length = 0 := by
      simp only [mu] at hmu; omega
    cases work with
    | nil => cases hn
    | cons a w => simp at hlen
  | succ f ih =>
    intro done work n m hmu hn him hsm
    cases work with
    | nil => cases hn
    | cons n' w =>
      simp only [expandLoop]
      have hmu2 : mu store (stepPair store done w n').1 (stepPair store done w n').2 ≤ f := by
        have := stepPair_mu store done w n'
        omega
      rcases List.mem_cons.mp hn with rfl | hnw
      · have h1 : hasName (stepPair store done w n).1 m = true :=
          addImplied_hasName store (impliesOf store n) (done, w) m him hsm
        rcases hasName_iff.mp h1 with ⟨d, hd, hdn⟩
        exact hasName_iff.mpr ⟨d, expandLoop_mono store f _ _ d hd, hdn⟩
      · exact ih _ _ n m hmu2
          (addImplied_work_mono store (impliesOf store n') (done, w) n hnw) him hsm

/-- With adequate fuel, implication chains of length two are followed: if
a worklisted `n` implies `m` and `m` implies `k` (all known), and `m` is
not yet settled without being worklisted, then `k` ends up present. -/
theorem expandLoop_processes2 (store : Store) (f : Nat) :
    ∀ (done : List Detection) (work : List String) (n m k : String),
      mu store done work ≤ f → n ∈ work → m ∈ impliesOf store n →
      (lookupTech store m).isSome = true → k ∈ impliesOf store m →
      (lookupTech store k).isSome = true →
      (hasName done m = false ∨ m ∈ work) →
      hasName (expandLoop store f done work) k = true := by
  induction f with
  | zero =>
    intro done work n m k hmu hn
    have hlen : work.length = 0 := by
      simp only [mu] at hmu; omega
    cases work with
    | nil => cases hn
    | cons a w => simp at hlen
  | succ f ih =>
    intro done work n m k hmu hn him hsm hkim hsk hinv
    cases work with
    | nil => cases hn
    | cons n' w =>
      by_cases hmw : m ∈ n' :: w
      · exact expandLoop_processes store (f + 1) done (n' :: w) m k hmu hmw hkim hsk
      · have hdm : hasName done m = false := by
          rcases hinv with h1 | h1
          · exact h1
          · exact absurd h1 hmw
        simp only [expandLoop]
        have hmu2 : mu store (stepPair store done w n').1 (stepPair store done w n').2 ≤ f := by
          have := stepPair_mu store done w n'
          omega
        rcases List.mem_cons.mp hn with rfl | hnw
        · have hpush : m ∈ (stepPair store done w n).2 :=
            addImplied_pushed store (impliesOf store n) (done, w) m him hsm (Or.inl hdm)
          exact expandLoop_processes store f _ _ m k hmu2 hpush hkim hsk
        · refine ih _ _ n m k hmu2
            (addImplied_work_mono store (impliesOf store n') (done, w) n hnw) him hsm hkim hsk ?_
          by_cases h2 : hasName (stepPair store done w n').1 m = true
          · rcases addImplied_new_pushed store (impliesOf store n') (done, w) m h2 with h3 | h3
            · rw [hdm] at h3; cases h3
            · exact Or.inr h3
          · have : hasName (stepPair store done w n').1 m = false := by
              revert h2; cases hasName (stepPair store done w n').1 m <;> simp
            exact Or.inl this

/-- C2: For every signature store in which technology A implies B and B
implies C, and every payload in which only A is directly detected with
confidence at or above the threshold (default 50), the resolved detection
set (the implication closure over the thresholded seeds) contains A, B,
and C, each implied technology being added with confidence 100 and itself
pushed onto the worklist, so implication closure is transitive. -/
theorem c2_implies_transitive (store : Store) (A B C : String) (tA tB : Technology)
    (dA : Detection)
    (hA : lookupTech store A = some tA) (hAB : B ∈ tA.implies)
    (hB : lookupTech store B = some tB) (hBC : C ∈ tB.implies)
    (hC : (lookupTech store C).isSome = true)
    (hname : dA.name = A) (hconf : threshold ≤ dA.confidence)
    (hab : A ≠ B) (hac : A ≠ C) (_hbc : B ≠ C) :
    (∃ d ∈ seedClosure store [dA], d.name = A) ∧
    (∃ d ∈ seedClosure store [dA],
      d.name = B ∧ d.confidence = 100 ∧ d.provenance = .implied) ∧
    (∃ d ∈ seedClosure store [dA],
      d.name = C ∧ d.confidence = 100 ∧ d.provenance = .implied) := by
  have hseeds : [dA].filter (fun d => threshold ≤ d.confidence) = [dA] := by
    simp [List.filter_cons, hconf]
  have hout : seedClosure store [dA] =
      expandLoop store (mu store [dA] [dA.name]) [dA] [dA.name] := by
    unfold seedClosure impliesClosure
    rw [hseeds]
    rfl
  have himpA : B ∈ impliesOf store dA.name := by
    rw [hname]
    simp only [impliesOf, hA]
    exact hAB
  have hsB : (lookupTech store B).isSome = true := by simp [hB]
  have himpB : C ∈ impliesOf store B := by
    simp only [impliesOf, hB]
    exact hBC
  have hAmem : dA.name ∈ [dA.name] := List.mem_singleton.mpr rfl
  refine ⟨?_, ?_, ?_⟩
  · refine ⟨dA, ?_, hname⟩
    rw [hout]
    exact expandLoop_mono store _ _ _ dA (List.mem_singleton.mpr rfl)
  · have hhas : hasName (seedClosure store [dA]) B = true := by
      rw [hout]
      exact expandLoop_processes store _ [dA] [dA.name] dA.name B (Nat.le_refl _)
        hAmem himpA hsB
    rcases hasName_iff.mp hhas with ⟨d, hd, hdn⟩
    have hshape : d ∈ [dA] ∨ ∃ m, d = mkImplied m := by
      rw [hout] at hd
      exact expandLoop_shape store _ _ _ d hd
    rcases hshape with h1 | ⟨m, rfl⟩
    · exfalso
      rw [List.mem_singleton.mp h1] at hdn
      exact hab (hname ▸ hdn)
    · exact ⟨mkImplied m, hd, hdn, rfl, rfl⟩
  · have hhas : hasName (seedClosure store [dA]) C = true := by
      rw [hout]
      refine expandLoop_processes2 store _ [dA] [dA.name] dA.name B C (Nat.le_refl _)
        hAmem himpA hsB himpB hC (Or.inl ?_)
      simp [hasName, hname, hab]
    rcases hasName_iff.mp hhas with ⟨d, hd, hdn⟩
    have hshape : d ∈ [dA] ∨ ∃ m, d = mkImplied m := by
      rw [hout] at hd
      exact expandLoop_shape store _ _ _ d hd
    rcases hshape with h1 | ⟨m, rfl⟩
    · exfalso
      rw [List.mem_singleton.mp h1] at hdn
      exact hac (hname ▸ hdn)
    · exact ⟨mkImplied m, hd, hdn, rfl, rfl⟩

/-- Witness for C2 on a concrete three-technology store: A implies B, B
implies C, only A is detected (confidence 60). -/
theorem c2_implies_transitive_witness :
    (∃ d ∈ seedClosure store2 [dA2], d.name = "A") ∧
    (∃ d ∈ seedClosure store2 [dA2],
      d.name = "B" ∧ d.confidence = 100 ∧ d.provenance = .implied) ∧
    (∃ d ∈ seedClosure store2 [dA2],
      d.name = "C" ∧ d.confidence = 100 ∧ d.provenance = .implied) :=
  c2_implies_transitive store2 "A" "B" "C" { implies := ["B"] } { implies := ["C"] } dA2
    rfl (by decide) rfl (by decide) rfl rfl (by decide)
    (by decide) (by decide) (by decide)

/-! ### Exclusion and requirement pruning -/

/-- The pruning loop only removes detections. -/
theorem pruneLoop_subset (store : Store) (f : Nat) :
    ∀ (l : List Detection) (d : Detection), d ∈ pruneLoop store f l → d ∈ l := by
  induction f with
  | zero => intro l d h; simpa [pruneLoop] using h
  | succ f ih =>
    intro l d h
    simp only [pruneLoop] at h
    by_cases hst : (l.filter (reqOk store l)).length = l.length
    · rw [if_pos hst] at h; exact h
    · rw [if_neg hst] at h
      exact (List.mem_filter.mp (ih _ d h)).1

/-- `pruneRequires` only removes detections. -/
theorem pruneRequires_subset (store : Store) (l : List Detection) (d : Detection)
    (h : d ∈ pruneRequires store l) : d ∈ l :=
  pruneLoop_subset store (l.length + 1) l d h

/-- A filter that keeps the whole length keeps every element satisfying
the predicate. -/
theorem filter_full_length {α : Type} (l : List α) (p : α → Bool)
    (h : (l.filter p).length = l.length) : ∀ a ∈ l, p a = true := by
  induction l with
  | nil => intro a ha; cases ha
  | cons a t ih =>
    intro b hb
    by_cases hp : p a = true
    · simp only [List.filter_cons, hp, if_true, List.length_cons] at h
      rcases List.mem_cons.mp hb with rfl | hbt
      · exact hp
      · exact ih (Nat.succ_injective h) b hbt
    · exfalso
      have hpf : p a = false := by revert hp; cases p a <;> simp
      rw [List.filter_cons, hpf] at h
      simp only [Bool.false_eq_true, if_false, List.length_cons] at h
      have h2 := List.length_filter_le p t
      omega

/-- With adequate fuel the pruning loop reaches a fixed point: every
surviving detection has its requirements satisfied in the surviving set. -/
theorem pruneLoop_fix (store : Store) (f : Nat) :
    ∀ (l : List Detection), l.length < f →
      ∀ d ∈ pruneLoop store f l, reqOk store (pruneLoop store f l) d = true := by
  induction f with
  | zero => intro l h; omega
  | succ f ih =>
    intro l hlen d hd
    simp only [pruneLoop] at hd ⊢
    by_cases hst : (l.filter (reqOk store l)).length = l.length
    · rw [if_pos hst] at hd ⊢
      exact filter_full_length l (reqOk store l) hst d hd
    · rw [if_neg hst] at hd ⊢
      have hlt : (l.filter (reqOk store l)).length < l.length :=
        Nat.lt_of_le_of_ne (List.length_filter_le _ l) hst
      exact ih (l.filter (reqOk store l)) (by omega) d hd

/-- C3: For every pair of technologies A and B such that A's signature
lists B in `excludes`, if A is present in the result set after
implication closure then B is absent from the resolver's final result,
even when B was itself directly detected with confidence 100 — exclusion
is one-directional and absolute. -/
theorem c3_excludes_absolute (store : Store) (dets : List Detection) (A B : String)
    (hAB : B ∈ excludesOf store A)
    (hA : hasName (seedClosure store dets) A = true) :
    hasName (resolve store dets) B = false := by
  cases hval : hasName (resolve store dets) B with
  | false => rfl
  | true =>
    exfalso
    rcases hasName_iff.mp hval with ⟨d, hd, hdn⟩
    unfold resolve attachCats at hd
    rcases List.mem_map.mp hd with ⟨d', hd', hdd⟩
    have hdn' : d'.name = B := by
      rw [← hdn, ← hdd]
    have hmem : d' ∈ applyExcludes store (seedClosure store dets) :=
      pruneRequires_subset store _ d' hd'
    unfold applyExcludes at hmem
    have hpred := (List.mem_filter.mp hmem).2
    rcases hasName_iff.mp hA with ⟨e, he, hen⟩
    have hany : ((seedClosure store dets).any fun e =>
        (excludesOf store e.name).any (fun x => x = d'.name)) = true := by
      refine List.any_eq_true.mpr ⟨e, he, ?_⟩
      refine List.any_eq_true.mpr ⟨B, ?_, by simp [hdn']⟩
      rw [hen]
      exact hAB
    rw [hany] at hpred
    simp at hpred

/-- Witness for C3: A and B both directly detected with confidence 100,
A excludes B; B is absent from the resolved result. -/
theorem c3_excludes_absolute_witness :
    hasName (resolve store3 dets3) "B" = false :=
  c3_excludes_absolute store3 dets3 "A" "B" (by decide) (by decide)

/-- C4: After exclusions are applied, requirement pruning removes every
technology for which no required technology name (and, for
`requiresCategory`, no technology carrying a required category id)
remains, iterated to a fixed point: every survivor has its requirements
satisfied within the surviving set, and pruning only removes.  The
concrete conjunct shows the cascade: in `store4` A excludes B, C requires
B and D requires C, so detecting all four resolves to A alone. -/
theorem c4_requires_pruned (store : Store) (l : List Detection) :
    (∀ d ∈ pruneRequires store l, reqOk store (pruneRequires store l) d = true) ∧
    (∀ d ∈ pruneRequires store l, d ∈ l) ∧
    resolve store4 dets4 = [⟨"A", 100, "", .signature, [1]⟩] := by
  refine ⟨?_, ?_, by decide⟩
  · exact pruneLoop_fix store (l.length + 1) l (Nat.lt_succ_self _)
  · exact fun d => pruneRequires_subset store l d

/-- Witness for C4: on the cascade store with nothing excluded yet, the
pruned set retains A and `reqOk` holds for it in the pruned set. -/
theorem c4_requires_pruned_witness :
    mkSig "A" ∈ pruneRequires store4 dets4 ∧
      reqOk store4 (pruneRequires store4 dets4) (mkSig "A") = true :=
  ⟨by decide, (c4_requires_pruned store4 dets4).1 (mkSig "A") (by decide)⟩

/-! ### Confidence bounds -/

/-- Directives keep the compiled weight within 0–100. -/
theorem applyDirective_conf_le (acc : ParsedPattern) (dir : List Char)
    (h : acc.confidence ≤ 100) : (applyDirective acc dir).confidence ≤ 100 := by
  unfold applyDirective
  by_cases h1 : beginsWith "confidence:".data dir = true
  · rw [if_pos h1]
    exact Nat.min_le_right _ _
  · rw [if_neg h1]
    by_cases h2 : beginsWith "version:".data dir = true
    · rw [if_pos h2]
      exact h
    · rw [if_neg h2]
      exact h

/-- Folding directives keeps the compiled weight within 0–100. -/
theorem foldl_applyDirective_conf_le (dirs : List (List Char)) :
    ∀ acc : ParsedPattern, acc.confidence ≤ 100 →
      (dirs.foldl applyDirective acc).confidence ≤ 100 := by
  induction dirs with
  | nil => intro acc h; exact h
  | cons d t ih =>
    intro acc h
    exact ih (applyDirective acc d) (applyDirective_conf_le acc d h)

/-- Every compiled rule's weight is within 0–100 (spec 4.1). -/
theorem parsePattern_conf_le (raw : String) : (parsePattern raw).confidence ≤ 100 := by
  unfold parsePattern
  cases splitDirectives raw.data with
  | nil => exact Nat.le_refl _
  | cons src dirs => exact foldl_applyDirective_conf_le dirs _ (Nat.le_refl _)

/-- Every hit produced by a rule carries the rule's technology, tag and
compiled weight. -/
theorem ruleHits_fields {rc : String → Reg} {n : String} {tg : Tag} {raw : String}
    {vals : List String} {h : Hit} (hm : h ∈ ruleHits rc n tg raw vals) :
    h.tech = n ∧ h.tag = tg ∧ h.weight = (parsePattern raw).confidence := by
  unfold ruleHits at hm
  rcases List.mem_filterMap.mp hm with ⟨v, _, hf⟩
  by_cases hsrc : (parsePattern raw).source = ""
  · rw [if_pos hsrc] at hf
    cases hf
    exact ⟨rfl, rfl, rfl⟩
  · rw [if_neg hsrc] at hf
    cases hsearch : regSearch (rc (parsePattern raw).source) v.data with
    | none => rw [hsearch] at hf; cases hf
    | some caps =>
      rw [hsearch] at hf
      cases hf
      exact ⟨rfl, rfl, rfl⟩

/-- Every matcher-produced hit has weight at most 100. -/
theorem matchSignals_weight {rc : String → Reg} {store : Store} {p : Payload} {h : Hit}
    (hm : h ∈ matchSignals rc store p) : h.weight ≤ 100 := by
  unfold matchSignals at hm
  rcases List.mem_flatMap.mp hm with ⟨nt, _, hm2⟩
  unfold matchTech at hm2
  rcases List.mem_flatMap.mp hm2 with ⟨tg, _, hm3⟩
  rcases List.mem_flatMap.mp hm3 with ⟨g, _, hm4⟩
  rw [(ruleHits_fields hm4).2.2]
  exact parsePattern_conf_le g.1

/-- An element of a Nat list is at most the list's sum. -/
theorem le_sum_of_mem {l : List Nat} {a : Nat} (h : a ∈ l) : a ≤ l.sum := by
  induction l with
  | nil => cases h
  | cons b t ih =>
    rcases List.mem_cons.mp h with rfl | h2
    · simp only [List.sum_cons]
      exact Nat.le_add_right _ _
    · simp only [List.sum_cons]
      exact Nat.le_trans (ih h2) (Nat.le_add_left _ _)

/-- C6: For every payload and signature store, the confidence of every
reported technology is an integer in [0, 100], computed as the capped sum
of the weights of its distinct hits and never below any single hit's own
weight; it is exactly 100 whenever some contributing rule has weight at
least 100, and technologies added via `implies` or helper confirmation
carry confidence 100. -/
theorem c6_confidence_invariant (rc : String → Reg) (store : Store) (p : Payload) :
    (∀ d ∈ analyze rc store p,
      d.confidence ≤ 100 ∧
      (∀ h ∈ matchSignals rc store p, h.tech = d.name → h.weight ≤ d.confidence) ∧
      ((∃ h ∈ matchSignals rc store p, h.tech = d.name ∧ 100 ≤ h.weight) →
        d.confidence = 100)) ∧
    (∀ n, (mkImplied n).confidence = 100) ∧
    (∀ n, (mkHelperDet n).confidence = 100) := by
  refine ⟨?_, fun n => rfl, fun n => rfl⟩
  intro d hd
  unfold analyze aggregate at hd
  rcases List.mem_map.mp hd with ⟨n, _, rfl⟩
  refine ⟨Nat.min_le_right _ _, ?_, ?_⟩
  · intro h hh htech
    have hname : (aggregateTech (matchSignals rc store p) n).name = n := rfl
    have hfil : h ∈ (matchSignals rc store p).filter (fun h => h.tech = n) := by
      refine List.mem_filter.mpr ⟨hh, ?_⟩
      rw [hname] at htech
      simp [htech]
    have hsum : h.weight ≤
        (((matchSignals rc store p).filter (fun h => h.tech = n)).map
          (fun h => h.weight)).sum :=
      le_sum_of_mem (List.mem_map_of_mem _ hfil)
    have h100 : h.weight ≤ 100 := matchSignals_weight hh
    exact Nat.le_min.mpr ⟨hsum, h100⟩
  · rintro ⟨h, hh, htech, hw⟩
    have hname : (aggregateTech (matchSignals rc store p) n).name = n := rfl
    have hfil : h ∈ (matchSignals rc store p).filter (fun h => h.tech = n) := by
      refine List.mem_filter.mpr ⟨hh, ?_⟩
      rw [hname] at htech
      simp [htech]
    have hsum : h.weight ≤
        (((matchSignals rc store p).filter (fun h => h.tech = n)).map
          (fun h => h.weight)).sum :=
      le_sum_of_mem (List.mem_map_of_mem _ hfil)
    exact Nat.min_eq_right (Nat.le_trans hw hsum)

/-- Witness for C6 at the Zend fixture: the Zend detection has confidence
at most 100, at least each hit's weight, and exactly 100 for the
weight-100 header hit. -/
theorem c6_confidence_invariant_witness :
    (⟨"Zend", 100, "8.1", .signature, []⟩ : Detection).confidence ≤ 100 ∧
      (⟨"Zend", 100, "8.1", .signature, []⟩ : Detection).confidence = 100 :=
  ⟨((c6_confidence_invariant rcZend zendStore zendPayload).1
      ⟨"Zend", 100, "8.1", .signature, []⟩ (by decide)).1,
    ((c6_confidence_invariant rcZend zendStore zendPayload).1
      ⟨"Zend", 100, "8.1", .signature, []⟩ (by decide)).2.2
      ⟨⟨"Zend", .headers, 100, "8.1"⟩, by decide, by decide, by decide⟩⟩

/-! ### Absent signals contribute no hits -/

/-- Filtering distributes over `flatMap`. -/
theorem filter_flatMap {α β : Type} (l : List α) (f : α → List β) (q : β → Bool) :
    (l.flatMap f).filter q = l.flatMap (fun x => (f x).filter q) := by
  induction l with
  | nil => rfl
  | cons a t ih =>
    simp only [List.flatMap_cons, List.filter_append, ih]

/-- A `flatMap` whose body is everywhere empty is empty. -/
theorem flatMap_nil_of {α β : Type} (l : List α) (f : α → List β)
    (h : ∀ x ∈ l, f x = []) : l.flatMap f = [] := by
  induction l with
  | nil => rfl
  | cons a t ih =>
    simp only [List.flatMap_cons, h a (List.mem_cons_self a t)]
    exact ih fun x hx => h x (List.mem_cons_of_mem a hx)

/-- A rule with no candidate values produces no hits. -/
theorem ruleHits_nil_vals (rc : String → Reg) (n : String) (tg : Tag) (raw : String) :
    ruleHits rc n tg raw [] = [] := rfl

/-- Hits of a rule on a different tag never carry the filtered tag. -/
theorem hitsWithTag_ruleHits_ne {rc : String → Reg} {n : String} {tg tg0 : Tag}
    {raw : String} {vals : List String} (hne : tg ≠ tg0) :
    (ruleHits rc n tg raw vals).filter (fun h => h.tag = tg0) = [] := by
  rw [List.filter_eq_nil_iff]
  intro h hm
  have := (ruleHits_fields hm).2.1
  simp only [decide_eq_true_eq]
  rw [this]
  exact hne

/-- A technology whose rule groups on a tag all have empty candidate
values contributes no hits on that tag. -/
theorem hitsWithTag_matchTech_nil (rc : String → Reg) (n : String) (t : Technology)
    (p : Payload) (tg0 : Tag) (hg : ∀ g ∈ groupsOf t p tg0, g.2 = []) :
    hitsWithTag tg0 (matchTech rc n t p) = [] := by
  unfold hitsWithTag matchTech
  rw [filter_flatMap]
  refine flatMap_nil_of _ _ ?_
  intro tg _
  rw [filter_flatMap]
  refine flatMap_nil_of _ _ ?_
  intro g hgm
  by_cases hEq : tg = tg0
  · subst hEq
    rw [hg g hgm]
    rfl
  · exact hitsWithTag_ruleHits_ne hEq

/-- A store whose rule groups on a tag all have empty candidate values
contributes no hits on that tag. -/
theorem hitsWithTag_matchSignals_nil (rc : String → Reg) (store : Store) (p : Payload)
    (tg0 : Tag) (hg : ∀ nt ∈ store, ∀ g ∈ groupsOf nt.2 p tg0, g.2 = []) :
    hitsWithTag tg0 (matchSignals rc store p) = [] := by
  unfold hitsWithTag matchSignals
  rw [filter_flatMap]
  refine flatMap_nil_of _ _ ?_
  intro nt hnt
  exact hitsWithTag_matchTech_nil rc nt.1 nt.2 p tg0 (hg nt hnt)

/-- C7: `url` is the only required top-level payload field: a missing or
falsy `url` makes the single scan fail with the typed "No URL provided"
failure before any fetching (from `getHTML` in `src/scrape.js`), a truthy
`url` passes the check, and every other absent payload field simply
contributes no hits for its signal type and causes no error (the matcher
is total). -/
theorem c7_url_required (url : Option String) (rc : String → Reg) (store : Store)
    (p : Payload) :
    (jsFalsy url = true → getHTMLCheck url = .error "No URL provided") ∧
    (jsFalsy url = false → getHTMLCheck url = .ok ()) ∧
    (p.html = none → hitsWithTag .html (matchSignals rc store p) = []) ∧
    (p.css = none → hitsWithTag .css (matchSignals rc store p) = []) ∧
    (p.text = none → hitsWithTag .text (matchSignals rc store p) = []) ∧
    (p.scriptSrc = [] → hitsWithTag .scriptSrc (matchSignals rc store p) = []) ∧
    (p.js = [] → hitsWithTag .js (matchSignals rc store p) = []) ∧
    (p.meta = [] → hitsWithTag .meta (matchSignals rc store p) = []) ∧
    (p.headers = [] → hitsWithTag .headers (matchSignals rc store p) = []) ∧
    (p.cookies = [] → hitsWithTag .cookies (matchSignals rc store p) = []) ∧
    (p.dnsTxt = [] → p.dnsMx = [] → hitsWithTag .dns (matchSignals rc store p) = []) ∧
    (p.dom = [] → hitsWithTag .dom (matchSignals rc store p) = []) := by
  refine ⟨?_, ?_, ?_, ?_, ?_, ?_, ?_, ?_, ?_, ?_, ?_, ?_⟩
  · intro h
    unfold getHTMLCheck
    rw [if_pos h]
  · intro h
    unfold getHTMLCheck
    rw [if_neg (by simp [h])]
  · intro hp
    refine hitsWithTag_matchSignals_nil rc store p .html ?_
    intro nt _ g hgm
    simp only [groupsOf] at hgm
    rcases List.mem_map.mp hgm with ⟨raw, _, rfl⟩
    simp [optVals, hp]
  · intro hp
    refine hitsWithTag_matchSignals_nil rc store p .css ?_
    intro nt _ g hgm
    simp only [groupsOf] at hgm
    rcases List.mem_map.mp hgm with ⟨raw, _, rfl⟩
    simp [optVals, hp]
  · intro hp
    refine hitsWithTag_matchSignals_nil rc store p .text ?_
    intro nt _ g hgm
    simp only [groupsOf] at hgm
    rcases List.mem_map.mp hgm with ⟨raw, _, rfl⟩
    simp [optVals, hp]
  · intro hp
    refine hitsWithTag_matchSignals_nil rc store p .scriptSrc ?_
    intro nt _ g hgm
    simp only [groupsOf] at hgm
    rcases List.mem_map.mp hgm with ⟨raw, _, rfl⟩
    exact hp
  · intro hp
    refine hitsWithTag_matchSignals_nil rc store p .js ?_
    intro nt _ g hgm
    simp only [groupsOf] at hgm
    rcases List.mem_map.mp hgm with ⟨kv, _, rfl⟩
    simp [lookupVal, hp]
  · intro hp
    refine hitsWithTag_matchSignals_nil rc store p .meta ?_
    intro nt _ g hgm
    simp only [groupsOf] at hgm
    rcases List.mem_map.mp hgm with ⟨kv, _, rfl⟩
    simp [lookupVals, hp]
  · intro hp
    refine hitsWithTag_matchSignals_nil rc store p .headers ?_
    intro nt _ g hgm
    simp only [groupsOf] at hgm
    rcases List.mem_map.mp hgm with ⟨kv, _, rfl⟩
    simp [lookupVals, hp]
  · intro hp
    refine hitsWithTag_matchSignals_nil rc store p .cookies ?_
    intro nt _ g hgm
    simp only [groupsOf] at hgm
    rcases List.mem_map.mp hgm with ⟨kv, _, rfl⟩
    simp [lookupVals, hp]
  · intro hp hp2
    refine hitsWithTag_matchSignals_nil rc store p .dns ?_
    intro nt _ g hgm
    simp only [groupsOf] at hgm
    rcases List.mem_append.mp hgm with hgm1 | hgm1
    · rcases List.mem_map.mp hgm1 with ⟨raw, _, rfl⟩
      exact hp
    · rcases List.mem_map.mp hgm1 with ⟨raw, _, rfl⟩
      exact hp2
  · intro hp
    refine hitsWithTag_matchSignals_nil rc store p .dom ?_
    intro nt _ g hgm
    simp only [groupsOf] at hgm
    rcases List.mem_map.mp hgm with ⟨kv, _, rfl⟩
    simp [lookupVal, hp]

/-- Witness for C7: a missing url fails the check, and the url-only
payload yields no html-tag hits on the Zend store. -/
theorem c7_url_required_witness :
    getHTMLCheck none = .error "No URL provided" ∧
      hitsWithTag .html (matchSignals rcZend zendStore urlOnlyPayload) = [] :=
  ⟨(c7_url_required none rcZend zendStore urlOnlyPayload).1 rfl,
    (c7_url_required none rcZend zendStore urlOnlyPayload).2.2.1 rfl⟩

/-! ### Empty payloads -/

/-- The worklist loop with an empty worklist returns its seeds. -/
theorem expandLoop_nil_work (store : Store) (f : Nat) (done : List Detection) :
    expandLoop store f done [] = done := by
  cases f <;> rfl

/-- A scan without any raw hit resolves and assembles to the empty list. -/
theorem pipeline_no_hits (rc : String → Reg) (store : Store) (p : Payload)
    (h : matchSignals rc store p = []) : scanPipeline rc store p [] = [] := by
  unfold scanPipeline analyze
  rw [h]
  show assemble (resolve store []) [] = []
  unfold resolve seedClosure impliesClosure
  rw [show (List.filter (fun d => threshold ≤ d.confidence) []) = ([] : List Detection)
    from rfl]
  rw [List.map_nil, expandLoop_nil_work]
  rfl

/-- C8 counterexample: against the non-empty store `c8Store` (one
signature carrying a presence-style `url` pattern), the payload that has
a `url` and no other signal yields a non-empty result — not the empty
list the claim demands for every non-empty store. -/
theorem c8_empty_payload_counterexample :
    scanPipeline rcNone c8Store urlOnlyPayload [] ≠ [] := by
  decide

/-- C8 (amended): for every non-empty signature store none of whose
signatures declares a `url` pattern, analyzing a payload that carries a
`url` but no other signal returns the empty result list, and no error is
raised (the pipeline is a total function). -/
theorem c8_empty_payload_amended (rc : String → Reg) (store : Store) (u : String)
    (_hne : store ≠ []) (hurl : ∀ nt ∈ store, nt.2.url = []) :
    scanPipeline rc store { url := some u } [] = [] := by
  refine pipeline_no_hits rc store _ ?_
  unfold matchSignals
  refine flatMap_nil_of _ _ ?_
  intro nt hnt
  unfold matchTech
  refine flatMap_nil_of _ _ ?_
  intro tg _
  refine flatMap_nil_of _ _ ?_
  intro g hgm
  cases tg with
  | url =>
    simp only [groupsOf, hurl nt hnt, List.map_nil] at hgm
    cases hgm
  | dns =>
    simp only [groupsOf] at hgm
    rcases List.mem_append.mp hgm with h1 | h1 <;>
      (rcases List.mem_map.mp h1 with ⟨raw, _, rfl⟩; rfl)
  | meta =>
    simp only [groupsOf] at hgm
    rcases List.mem_map.mp hgm with ⟨kv, _, rfl⟩
    rfl
  | headers =>
    simp only [groupsOf] at hgm
    rcases List.mem_map.mp hgm with ⟨kv, _, rfl⟩
    rfl
  | cookies =>
    simp only [groupsOf] at hgm
    rcases List.mem_map.mp hgm with ⟨kv, _, rfl⟩
    rfl
  | js =>
    simp only [groupsOf] at hgm
    rcases List.mem_map.mp hgm with ⟨kv, _, rfl⟩
    rfl
  | dom =>
    simp only [groupsOf] at hgm
    rcases List.mem_map.mp hgm with ⟨kv, _, rfl⟩
    rfl
  | cpe =>
    simp only [groupsOf] at hgm
    cases hgm
  | scriptSrc =>
    simp only [groupsOf] at hgm
    rcases List.mem_map.mp hgm with ⟨raw, _, rfl⟩
    rfl
  | html =>
    simp only [groupsOf] at hgm
    rcases List.mem_map.mp hgm with ⟨raw, _, rfl⟩
    rfl
  | css =>
    simp only [groupsOf] at hgm
    rcases List.mem_map.mp hgm with ⟨raw, _, rfl⟩
    rfl
  | text =>
    simp only [groupsOf] at hgm
    rcases List.mem_map.mp hgm with ⟨raw, _, rfl⟩
    rfl

/-- Witness for the amended C8: the Zend store has no `url` patterns, and
the url-only payload scans to the empty result. -/
theorem c8_empty_payload_amended_witness :
    scanPipeline rcZend zendStore urlOnlyPayload [] = [] :=
  c8_empty_payload_amended rcZend zendStore "https://example.com"
    (by unfold zendStore; exact List.cons_ne_nil _ _)
    (by
      intro nt hnt
      simp only [zendStore] at hnt
      rcases List.mem_singleton.mp hnt with rfl
      rfl)

/-! ### Assembler lemmas -/

/-- Membership through the insertion step of the final sort. -/
theorem mem_insertDet {d x : Detection} : ∀ l, (x ∈ insertDet d l ↔ x = d ∨ x ∈ l) := by
  intro l
  induction l with
  | nil => simp [insertDet]
  | cons e es ih =>
    unfold insertDet
    by_cases hb : detBefore d e = true
    · rw [if_pos hb]
      simp [List.mem_cons]
    · rw [if_neg hb]
      simp only [List.mem_cons, ih]
      tauto

/-- The final sort preserves membership. -/
theorem mem_sortDets {x : Detection} : ∀ l, (x ∈ sortDets l ↔ x ∈ l) := by
  intro l
  induction l with
  | nil => simp [sortDets]
  | cons d ds ih =>
    unfold sortDets
    rw [mem_insertDet]
    simp [List.mem_cons, ih]

/-- Entries never leave the dedup fold's accumulator. -/
theorem dedupName_fold_mono (l : List Detection) :
    ∀ (acc : List Detection) (d : Detection), d ∈ acc →
      d ∈ l.foldl (fun acc d => if hasName acc d.name then acc else acc ++ [d]) acc := by
  induction l with
  | nil => intro acc d h; exact h
  | cons e t ih =>
    intro acc d h
    simp only [List.foldl_cons]
    refine ih _ d ?_
    by_cases hb : hasName acc e.name = true
    · rw [if_pos hb]; exact h
    · rw [if_neg hb]; exact List.mem_append.mpr (Or.inl h)

/-- Every entry of the dedup fold came from the accumulator or the list. -/
theorem dedupName_fold_subset (l : List Detection) :
    ∀ (acc : List Detection) (x : Detection),
      x ∈ l.foldl (fun acc d => if hasName acc d.name then acc else acc ++ [d]) acc →
      x ∈ acc ∨ x ∈ l := by
  induction l with
  | nil => intro acc x h; exact Or.inl h
  | cons e t ih =>
    intro acc x h
    simp only [List.foldl_cons] at h
    rcases ih _ x h with h1 | h1
    · by_cases hb : hasName acc e.name = true
      · rw [if_pos hb] at h1
        exact Or.inl h1
      · rw [if_neg hb] at h1
        rcases List.mem_append.mp h1 with h2 | h2
        · exact Or.inl h2
        · exact Or.inr (List.mem_cons.mpr (Or.inl (List.mem_singleton.mp h2)))
    · exact Or.inr (List.mem_cons_of_mem e h1)

/-- A name present in the accumulator or the list is present after the
dedup fold. -/
theorem dedupName_fold_hasName (l : List Detection) :
    ∀ (acc : List Detection) (n : String),
      (hasName acc n = true ∨ hasName l n = true) →
      hasName (l.foldl (fun acc d => if hasName acc d.name then acc else acc ++ [d]) acc)
        n = true := by
  induction l with
  | nil =>
    intro acc n h
    rcases h with h | h
    · exact h
    · simp [hasName] at h
  | cons e t ih =>
    intro acc n h
    simp only [List.foldl_cons]
    rcases h with h | h
    · rcases hasName_iff.mp h with ⟨d, hd, hdn⟩
      refine hasName_iff.mpr ⟨d, dedupName_fold_mono t _ d ?_, hdn⟩
      by_cases hb : hasName acc e.name = true
      · rw [if_pos hb]; exact hd
      · rw [if_neg hb]; exact List.mem_append.mpr (Or.inl hd)
    · have h2 : (decide (e.name = n) || hasName t n) = true := by
        simpa [hasName, List.any_cons] using h
      by_cases hen : e.name = n
      · by_cases hb : hasName acc e.name = true
        · rw [if_pos hb]
          refine ih acc n (Or.inl ?_)
          rw [← hen]
          exact hb
        · rw [if_neg hb]
          refine ih _ n (Or.inl ?_)
          rw [hasName_append_one]
          simp [hen]
      · have h3 : hasName t n = true := by
          rcases Bool.or_eq_true_iff.mp h2 with h4 | h4
          · exact absurd (of_decide_eq_true h4) hen
          · exact h4
        by_cases hb : hasName acc e.name = true
        · rw [if_pos hb]
          exact ih acc n (Or.inr h3)
        · rw [if_neg hb]
          exact ih _ n (Or.inr h3)

/-- A detection of the assembled output whose name the resolver did not
report is the fresh helper record of that name. -/
theorem applyHelpers_name_shape {resolved : List Detection}
    {findings : List (Option String)} {d : Detection} {n : String}
    (hd : d ∈ applyHelpers resolved findings) (hdn : d.name = n)
    (habs : hasName resolved n = false) : d = mkHelperDet n := by
  unfold applyHelpers at hd
  rcases List.mem_append.mp hd with h1 | h1
  · exfalso
    rcases List.mem_map.mp h1 with ⟨d0, hd0, hmap⟩
    have hname : d.name = d0.name := by
      rw [← hmap]
      by_cases hb : (findings.filterMap id).any (fun m => m = d0.name) = true
      · rw [if_pos hb]
      · rw [if_neg hb]
    have : hasName resolved n = true :=
      hasName_iff.mpr ⟨d0, hd0, by rw [← hname, hdn]⟩
    rw [habs] at this
    cases this
  · rcases List.mem_map.mp h1 with ⟨m, _, hmap⟩
    have hm : m = n := by
      rw [← hdn, ← hmap]
      rfl
    rw [← hmap, hm]

/-- A helper-confirmed name absent from the resolved set enters the
merged list as the fresh helper record. -/
theorem applyHelpers_fresh_mem {resolved : List Detection}
    {findings : List (Option String)} {n : String}
    (hn : some n ∈ findings) (habs : hasName resolved n = false) :
    mkHelperDet n ∈ applyHelpers resolved findings := by
  unfold applyHelpers
  refine List.mem_append.mpr (Or.inr ?_)
  refine List.mem_map.mpr ⟨n, ?_, rfl⟩
  refine List.mem_filter.mpr ⟨?_, by simp [habs]⟩
  exact List.mem_filterMap.mpr ⟨some n, hn, rfl⟩

/-- C9: Every helper scan (WordPress, Shopify, Magento) returns either the
falsy "not detected" value or an object whose `name` field identifies the
confirmed technology; and a helper-confirmed technology absent from the
signature-based detection set is added fresh to the final result with
provenance "helper" (and confidence 100). -/
theorem c9_helper_findings (url : Option String) (dom : Option Dom)
    (resolved : List Detection) (findings : List (Option String)) (n : String) :
    (∀ r, wordpressScan url dom = .ok r →
      r = none ∨ ∃ f, r = some f ∧ f.name = "WordPress") ∧
    (∀ r, shopifyScan url dom = .ok r →
      r = none ∨ ∃ f, r = some f ∧ f.name = "Shopify") ∧
    (∀ r, magentoScan url dom = .ok r →
      r = none ∨ ∃ f, r = some f ∧ f.name = "Magento") ∧
    (some n ∈ findings → hasName resolved n = false →
      ∃ d ∈ assemble resolved findings,
        d.name = n ∧ d.provenance = .helper ∧ d.confidence = 100) := by
  refine ⟨?_, ?_, ?_, ?_⟩
  · intro r hr
    cases dom with
    | none =>
      simp only [wordpressScan] at hr
      exact Except.noConfusion hr
    | some d =>
      simp only [wordpressScan] at hr
      by_cases hf : jsFalsy url = true
      · rw [if_pos hf] at hr
        exact Except.noConfusion hr
      · rw [if_neg hf] at hr
        by_cases hw : isWordpress d = true
        · rw [if_pos hw] at hr
          injection hr with h
          subst h
          exact Or.inr ⟨_, rfl, rfl⟩
        · rw [if_neg hw] at hr
          injection hr with h
          subst h
          exact Or.inl rfl
  · intro r hr
    cases dom with
    | none =>
      simp only [shopifyScan] at hr
      exact Except.noConfusion hr
    | some d =>
      simp only [shopifyScan] at hr
      by_cases hf : jsFalsy url = true
      · rw [if_pos hf] at hr
        exact Except.noConfusion hr
      · rw [if_neg hf] at hr
        by_cases hw : isShopify d = true
        · rw [if_pos hw] at hr
          injection hr with h
          subst h
          exact Or.inr ⟨_, rfl, rfl⟩
        · rw [if_neg hw] at hr
          injection hr with h
          subst h
          exact Or.inl rfl
  · intro r hr
    cases dom with
    | none =>
      simp only [magentoScan, domHtml] at hr
      exact Except.noConfusion hr
    | some d =>
      simp only [magentoScan, domHtml] at hr
      by_cases hm : isMagento d.html = true
      · rw [if_pos hm] at hr
        injection hr with h
        subst h
        exact Or.inr ⟨_, rfl, rfl⟩
      · rw [if_neg hm] at hr
        injection hr with h
        subst h
        exact Or.inl rfl
  · intro hn habs
    have hmem : mkHelperDet n ∈ applyHelpers resolved findings :=
      applyHelpers_fresh_mem hn habs
    have hhas : hasName (dedupByName (applyHelpers resolved findings)) n = true := by
      unfold dedupByName
      refine dedupName_fold_hasName _ [] n (Or.inr ?_)
      exact hasName_iff.mpr ⟨mkHelperDet n, hmem, rfl⟩
    rcases hasName_iff.mp hhas with ⟨d, hd, hdn⟩
    have hdApp : d ∈ applyHelpers resolved findings := by
      rcases dedupName_fold_subset _ [] d hd with h1 | h1
      · cases h1
      · exact h1
    have hdEq : d = mkHelperDet n := applyHelpers_name_shape hdApp hdn habs
    refine ⟨d, ?_, hdn, by rw [hdEq]; rfl, by rw [hdEq]; rfl⟩
    unfold assemble
    exact (mem_sortDets _).mpr hd

/-- Witness for C9: the WordPress helper confirms `wpDom`, and a
helper-confirmed "WordPress" absent from an empty resolved set is added
fresh with provenance "helper". -/
theorem c9_helper_findings_witness :
    (∃ f, (some (⟨"WordPress", some "site.example"⟩ : HelperFound)) = some f ∧
        f.name = "WordPress") ∧
    (∃ d ∈ assemble [] [some "WordPress"],
      d.name = "WordPress" ∧ d.provenance = .helper ∧ d.confidence = 100) := by
  refine ⟨?_, ?_⟩
  · have := ((c9_helper_findings (some "https://site.example/") (some wpDom) []
      [some "WordPress"] "WordPress").1
        (some ⟨"WordPress", some "site.example"⟩) rfl)
    rcases this with h | h
    · cases h
    · exact h
  · exact (c9_helper_findings (some "https://site.example/") (some wpDom) []
      [some "WordPress"] "WordPress").2.2.2 (by decide) (by decide)

/-- C10: The WordPress and Shopify helpers throw the invalid-argument
error whenever `url` is falsy or `dom` is missing; the Magento helper
performs no such check and reads `dom.html()` unconditionally (a missing
`dom` is a `TypeError`, and a falsy `url` causes no error); when both
arguments are present and the CMS marker is absent a helper returns the
falsy "not detected" value. -/
theorem c10_helper_guards (url : Option String) (dom : Dom) :
    (jsFalsy url = true →
      wordpressScan url (some dom) = .error invalidArgMsg ∧
      shopifyScan url (some dom) = .error invalidArgMsg) ∧
    (wordpressScan url none = .error invalidArgMsg) ∧
    (shopifyScan url none = .error invalidArgMsg) ∧
    (∃ r, magentoScan url (some dom) = .ok r) ∧
    (magentoScan url none = .error "TypeError: dom is undefined") ∧
    (jsFalsy url = false → isWordpress dom = false →
      wordpressScan url (some dom) = .ok none) ∧
    (jsFalsy url = false → isShopify dom = false →
      shopifyScan url (some dom) = .ok none) ∧
    (isMagento dom.html = false → magentoScan url (some dom) = .ok none) := by
  refine ⟨?_, rfl, rfl, ?_, rfl, ?_, ?_, ?_⟩
  · intro hf
    constructor
    · simp only [wordpressScan]
      rw [if_pos hf]
    · simp only [shopifyScan]
      rw [if_pos hf]
  · simp only [magentoScan, domHtml]
    by_cases hm : isMagento dom.html = true
    · rw [if_pos hm]
      exact ⟨_, rfl⟩
    · rw [if_neg hm]
      exact ⟨_, rfl⟩
  · intro hf hw
    simp only [wordpressScan]
    rw [if_neg (by simp [hf]), if_neg (by simp [hw])]
  · intro hf hs
    simp only [shopifyScan]
    rw [if_neg (by simp [hf]), if_neg (by simp [hs])]
  · intro hm
    simp only [magentoScan, domHtml]
    rw [if_neg (by simp [hm])]

/-- Witness for C10: a falsy url makes the WordPress helper throw; with a
truthy url and no marker it returns the falsy value; the Magento helper
accepts a falsy url. -/
theorem c10_helper_guards_witness :
    wordpressScan (some "") (some plainDom) = .error invalidArgMsg ∧
    wordpressScan (some "https://x.example/") (some plainDom) = .ok none ∧
    magentoScan (some "") (some plainDom) = .ok none := by
  refine ⟨((c10_helper_guards (some "") plainDom).1 (by decide)).1, ?_, ?_⟩
  · exact (c10_helper_guards (some "https://x.example/") plainDom).2.2.2.2.2.1
      (by decide) (by decide)
  · exact (c10_helper_guards (some "") plainDom).2.2.2.2.2.2.2 (by decide)

end Wapp
